import Mathlib

set_option linter.unusedVariables false

namespace InternedString

/-! Shallow embedding of the interned-string storage (src/src/storage.rs).

A `BoxedStr` (a `Box<str>` wrapped for controlled pointer aliasing) is modelled
by its byte contents: `clone`, `clone_with_aliasing` and the final `free` or
`drop` differ only in memory management, which has no observable effect on the
stored data. The radix trie and the hash map are modelled as association lists;
`lookupA`, `insertA` (insert-or-replace) and `eraseA` mirror
`Trie::get/insert/remove` and `HashMap::get/insert/remove`. Rust code that can
fail (`unwrap` on a missing key or on checked arithmetic) returns `Option`. -/

/-- Byte contents of a `BoxedStr`. -/
abbrev BoxedStr : Type := List Nat

/-- `type IStringKey = u32`; key values are kept below `2 ^ 32` because the
writer allocates them with `checkedAddU32`. -/
abbrev IStringKey : Type := Nat

/-- Largest `u32` value. -/
def u32Max : Nat := 4294967295

/-- `u32::checked_add`. -/
def checkedAddU32 (a b : Nat) : Option Nat :=
  if a + b ≤ u32Max then some (a + b) else none

/-- Smallest `isize` value (64-bit target). -/
def isizeMin : Int := -(2 ^ 63)

/-- Largest `isize` value (64-bit target). -/
def isizeMax : Int := 2 ^ 63 - 1

/-- Wrap an integer into the `isize` range (two's complement). -/
def wrapIsize (n : Int) : Int :=
  (n + 2 ^ 63) % 2 ^ 64 - 2 ^ 63

/-- `isize::checked_sub` for subtrahend `1` (only underflow can occur). -/
def checkedSubIsize (a b : Int) : Option Int :=
  if a - b < isizeMin then none else some (a - b)

/-- Lookup in an association list (`Trie::get` / `HashMap::get`). -/
def lookupA {α β : Type} [DecidableEq α] : List (α × β) → α → Option β
  | [], _ => none
  | (k, v) :: rest, a => if k = a then some v else lookupA rest a

/-- Remove every binding of a key (`Trie::remove` / `HashMap::remove`); on a
list without duplicate keys this removes the single binding, if present. -/
def eraseA {α β : Type} [DecidableEq α] : List (α × β) → α → List (α × β)
  | [], _ => []
  | (k, v) :: rest, a => if k = a then eraseA rest a else (k, v) :: eraseA rest a

/-- Insert-or-replace a binding (`Trie::insert` / `HashMap::insert`). -/
def insertA {α β : Type} [DecidableEq α] (l : List (α × β)) (a : α) (b : β) :
    List (α × β) :=
  (a, b) :: eraseA l a

/-- The keys of an association list are pairwise distinct. -/
def NodupKeys {α β : Type} (l : List (α × β)) : Prop :=
  List.Nodup (List.map Prod.fst l)

/-- `StoredString`: a refcounted stored string. The count is an `isize`; the
source notes it can transiently be negative. -/
structure StoredString where
  inner : BoxedStr
  strong_count : Int
deriving DecidableEq, Repr

/-- `StoredString::new`: fresh entry with `strong_count = 1`. -/
def StoredString.new (string : BoxedStr) : StoredString :=
  { inner := string, strong_count := 1 }

/-- `StoredString::retain`: `self.strong_count += 1`, an unchecked `isize`
addition, which wraps on overflow (release-build semantics). -/
def StoredString.retain (s : StoredString) : StoredString :=
  { s with strong_count := wrapIsize (s.strong_count + 1) }

/-- `StoredString::release`: `self.strong_count = self.strong_count.checked_sub(1).unwrap()`. -/
def StoredString.release (s : StoredString) : Option StoredString :=
  match checkedSubIsize s.strong_count 1 with
  | none => none
  | some c => some { s with strong_count := c }

/-- `StoredString::is_droppable`: `self.strong_count == 0`. -/
def StoredString.is_droppable (s : StoredString) : Bool :=
  s.strong_count == 0

/-- `InnerStringStorage`: one replica of the store. -/
structure InnerStringStorage where
  trie : List (BoxedStr × IStringKey)
  map : List (IStringKey × StoredString)
  strings_to_possibly_free : List IStringKey
deriving DecidableEq, Repr

/-- `InnerStringStorage::retain`: `self.map.get_mut(&key).unwrap()` then
`stored_string.retain()`. `none` models the `unwrap` failure. -/
def InnerStringStorage.retain (s : InnerStringStorage) (key : IStringKey) :
    Option InnerStringStorage :=
  match lookupA s.map key with
  | none => none
  | some stored_string =>
    some { s with map := insertA s.map key stored_string.retain }

/-- `InnerStringStorage::release`: decrement the count and, if the entry became
droppable, push the key onto `strings_to_possibly_free`. -/
def InnerStringStorage.release (s : InnerStringStorage) (key : IStringKey) :
    Option InnerStringStorage :=
  match lookupA s.map key with
  | none => none
  | some stored_string =>
    match stored_string.release with
    | none => none
    | some stored2 =>
      if stored2.is_droppable then
        some { s with map := insertA s.map key stored2,
                      strings_to_possibly_free := s.strings_to_possibly_free ++ [key] }
      else
        some { s with map := insertA s.map key stored2 }

/-- `StringStorageOp`: the operations absorbed by the replicas. -/
inductive StringStorageOp where
  | Insert (key : IStringKey) (string : BoxedStr)
  | Retain (key : IStringKey)
  | Release (key : IStringKey)
  | DropUnusedStrings
deriving DecidableEq, Repr

/-- `ChannelOp`: the operations sent on the readers' op-channel. -/
inductive ChannelOp where
  | Retain (key : IStringKey)
  | Release (key : IStringKey)
deriving DecidableEq, Repr

/-- The `DropUnusedStrings` loop of `absorb_first`: drain
`strings_to_possibly_free`; for each key `self.map.remove(&key).unwrap()`,
re-check `is_droppable`, and either remove the string from the trie (the
`BoxedStr` is dropped without freeing, invisible here) or reinsert the entry
into the map. -/
def processPendingFirst :
    List (BoxedStr × IStringKey) → List (IStringKey × StoredString) →
    List IStringKey →
    Option (List (BoxedStr × IStringKey) × List (IStringKey × StoredString))
  | trie, map, [] => some (trie, map)
  | trie, map, string_key :: rest =>
    match lookupA map string_key with
    | none => none
    | some stored =>
      if stored.is_droppable then
        processPendingFirst (eraseA trie stored.inner) (eraseA map string_key) rest
      else
        processPendingFirst trie (insertA (eraseA map string_key) string_key stored) rest

/-- The `DropUnusedStrings` loop of `absorb_second`: identical to the
`absorb_first` loop except that the dropped `BoxedStr` is freed (`free()`),
which has no observable effect on the stored data. -/
def processPendingSecond :
    List (BoxedStr × IStringKey) → List (IStringKey × StoredString) →
    List IStringKey →
    Option (List (BoxedStr × IStringKey) × List (IStringKey × StoredString))
  | trie, map, [] => some (trie, map)
  | trie, map, string_key :: rest =>
    match lookupA map string_key with
    | none => none
    | some stored =>
      if stored.is_droppable then
        processPendingSecond (eraseA trie stored.inner) (eraseA map string_key) rest
      else
        processPendingSecond trie (insertA (eraseA map string_key) string_key stored) rest

/-- `Absorb::absorb_first` for `InnerStringStorage`. For `Insert` the trie gets
`string.clone()` and the map a `StoredString` built from
`string.clone_with_aliasing()` (equal contents); the `debug_assert`s are
compiled out in release builds and are stated as preconditions of the
invariant theorems instead. -/
def InnerStringStorage.absorb_first (s : InnerStringStorage) (op : StringStorageOp) :
    Option InnerStringStorage :=
  match op with
  | StringStorageOp.Insert key string =>
    some { s with trie := insertA s.trie string key,
                  map := insertA s.map key (StoredString.new string) }
  | StringStorageOp.Retain key => s.retain key
  | StringStorageOp.Release key => s.release key
  | StringStorageOp.DropUnusedStrings =>
    match processPendingFirst s.trie s.map s.strings_to_possibly_free with
    | none => none
    | some (trie2, map2) =>
      some { trie := trie2, map := map2, strings_to_possibly_free := [] }

/-- `Absorb::absorb_second` for `InnerStringStorage`. For `Insert` the trie
gets `string.clone()` and the map consumes `string` directly. -/
def InnerStringStorage.absorb_second (s : InnerStringStorage) (op : StringStorageOp) :
    Option InnerStringStorage :=
  match op with
  | StringStorageOp.Insert key string =>
    some { s with trie := insertA s.trie string key,
                  map := insertA s.map key (StoredString.new string) }
  | StringStorageOp.Retain key => s.retain key
  | StringStorageOp.Release key => s.release key
  | StringStorageOp.DropUnusedStrings =>
    match processPendingSecond s.trie s.map s.strings_to_possibly_free with
    | none => none
    | some (trie2, map2) =>
      some { trie := trie2, map := map2, strings_to_possibly_free := [] }

/-- Absorb a list of ops in order through `absorb_first`. -/
def absorbAllFirst (s : InnerStringStorage) : List StringStorageOp → Option InnerStringStorage
  | [] => some s
  | op :: rest =>
    match s.absorb_first op with
    | none => none
    | some s2 => absorbAllFirst s2 rest

/-- Absorb a list of ops in order through `absorb_second`. -/
def absorbAllSecond (s : InnerStringStorage) : List StringStorageOp → Option InnerStringStorage
  | [] => some s
  | op :: rest =>
    match s.absorb_second op with
    | none => none
    | some s2 => absorbAllSecond s2 rest

/-- The left-right `WriteHandle`: the batched op log plus the two replicas.
`r_replica` is the replica the readers currently enter; `w_replica` is the
inactive one the writer absorbs into first. -/
structure WriteHandle where
  oplog : List StringStorageOp
  w_replica : InnerStringStorage
  r_replica : InnerStringStorage
deriving DecidableEq, Repr

/-- `WriteHandle::append`: queue one op on the batched op log. -/
def WriteHandle.append (wh : WriteHandle) (op : StringStorageOp) : WriteHandle :=
  { wh with oplog := wh.oplog ++ [op] }

/-- `WriteHandle::publish` (contract of the left-right primitive, spec section
4.1): apply the queued ops to the inactive replica with `absorb_first`, swap so
readers see it, then apply the same ops to the now-inactive replica with
`absorb_second`. -/
def WriteHandle.publish (wh : WriteHandle) : Option WriteHandle :=
  match absorbAllFirst wh.w_replica wh.oplog with
  | none => none
  | some newRead =>
    match absorbAllSecond wh.r_replica wh.oplog with
    | none => none
    | some newWrite =>
      some { oplog := [], w_replica := newWrite, r_replica := newRead }

/-- `UniqueWriter`: write handle, next free key, and the receiving end of the
op-channel (its undrained contents, in arrival order). -/
structure UniqueWriter where
  write_handle : WriteHandle
  next_key : IStringKey
  ops_channel_receiver : List ChannelOp
deriving DecidableEq, Repr

/-- The translation applied by `drain_channel_ops` to each channel op. -/
def channelToStorageOp (op : ChannelOp) : StringStorageOp :=
  match op with
  | ChannelOp.Retain key => StringStorageOp.Retain key
  | ChannelOp.Release key => StringStorageOp.Release key

/-- The receive loop of `drain_channel_ops`: append the translation of each
received channel op to the op log, until the channel is empty. -/
def drainLoop (wh : WriteHandle) : List ChannelOp → WriteHandle
  | [] => wh
  | op :: rest => drainLoop (wh.append (channelToStorageOp op)) rest

/-- `UniqueWriter::drain_channel_ops`: receive channel ops until the channel is
empty, appending the translation of each to the op log. -/
def UniqueWriter.drain_channel_ops (w : UniqueWriter) : UniqueWriter :=
  { w with write_handle := drainLoop w.write_handle w.ops_channel_receiver,
           ops_channel_receiver := [] }

/-- `UniqueWriter::do_pending_ops_and_insert`: drain the channel, allocate
`next_key` (`checked_add(1).unwrap()` fails on `u32` overflow), append
`Insert` then `DropUnusedStrings`, publish, and return the new key. -/
def UniqueWriter.do_pending_ops_and_insert (w : UniqueWriter) (string : BoxedStr) :
    Option (UniqueWriter × IStringKey) :=
  let w1 := w.drain_channel_ops
  let key := w1.next_key
  match checkedAddU32 w1.next_key 1 with
  | none => none
  | some nk =>
    let wh := (w1.write_handle.append (StringStorageOp.Insert key string)).append
        StringStorageOp.DropUnusedStrings
    match wh.publish with
    | none => none
    | some wh2 =>
      some ({ write_handle := wh2, next_key := nk,
              ops_channel_receiver := w1.ops_channel_receiver }, key)

/-- `ConcurrentStringStorage`: the writer (behind its mutex) together with the
op-channel and read handles it owns. Sequentially, the channel contents live in
`writer.ops_channel_receiver` and the readers' replica is
`writer.write_handle.r_replica`. -/
structure ConcurrentStringStorage where
  writer : UniqueWriter
deriving DecidableEq, Repr

/-- The replica a `ThreadLocalReader` enters. -/
def ConcurrentStringStorage.readable (css : ConcurrentStringStorage) :
    InnerStringStorage :=
  css.writer.write_handle.r_replica

/-- `ThreadLocalReader::retain`: send `ChannelOp::Retain { key }` on the
op-channel. -/
def ThreadLocalReader.retain (css : ConcurrentStringStorage) (key : IStringKey) :
    ConcurrentStringStorage :=
  { writer := { css.writer with
      ops_channel_receiver := css.writer.ops_channel_receiver ++ [ChannelOp.Retain key] } }

/-- `ThreadLocalReader::read`: look the handle's key up in the entered
replica's map and return the stored contents (`expect` models as `Option`). -/
def ThreadLocalReader.read (iss : InnerStringStorage) (key : IStringKey) :
    Option BoxedStr :=
  Option.map StoredString.inner (lookupA iss.map key)

/-- `ConcurrentStringStorage::insert_or_retain`: look the string up in the
thread-local reader's trie; on a hit send a `Retain` for the found key and
return it, otherwise lock the writer and run `do_pending_ops_and_insert`. -/
def ConcurrentStringStorage.insert_or_retain (css : ConcurrentStringStorage)
    (string : BoxedStr) : Option (ConcurrentStringStorage × IStringKey) :=
  match lookupA css.readable.trie string with
  | some found_key => some (ThreadLocalReader.retain css found_key, found_key)
  | none =>
    match css.writer.do_pending_ops_and_insert string with
    | none => none
    | some (w2, key) => some ({ writer := w2 }, key)

/-- `ConcurrentStringStorage::new`: empty replicas, `next_key = 0`, empty
channel. -/
def ConcurrentStringStorage.new : ConcurrentStringStorage :=
  { writer :=
    { write_handle :=
      { oplog := [],
        w_replica := { trie := [], map := [], strings_to_possibly_free := [] },
        r_replica := { trie := [], map := [], strings_to_possibly_free := [] } },
      next_key := 0,
      ops_channel_receiver := [] } }

/-- Trie/map agreement on a replica (spec section 3, invariant (i)), together
with key distinctness and the size consequence. -/
structure Coherent (s : InnerStringStorage) : Prop where
  nodup_trie : NodupKeys s.trie
  nodup_map : NodupKeys s.map
  trie_to_map : ∀ str k, lookupA s.trie str = some k →
    ∃ e, lookupA s.map k = some e ∧ e.inner = str
  map_to_trie : ∀ k e, lookupA s.map k = some e → lookupA s.trie e.inner = some k
  size_eq : s.trie.length = s.map.length

/-- Debug-asserted preconditions under which an op is absorbed (spec section
4.4): `Insert` requires freshness of the string and the key, `Retain` and
`Release` a present key. -/
def PreOK (op : StringStorageOp) (s : InnerStringStorage) : Prop :=
  match op with
  | StringStorageOp.Insert key string =>
    lookupA s.trie string = none ∧ lookupA s.map key = none
  | StringStorageOp.Retain key => (lookupA s.map key).isSome = true
  | StringStorageOp.Release key => (lookupA s.map key).isSome = true
  | StringStorageOp.DropUnusedStrings => True

/-- `op` is a `Retain` or a `Release`. -/
def IsRROp (op : StringStorageOp) : Prop :=
  match op with
  | StringStorageOp.Retain _ => True
  | StringStorageOp.Release _ => True
  | _ => False

/-- Keys inserted by a list of ops. -/
def insertKeysOf (ops : List StringStorageOp) : List IStringKey :=
  List.filterMap
    (fun op => match op with
      | StringStorageOp.Insert key _ => some key
      | _ => none) ops

/-- The sequences whose entries a `DropUnusedStrings` will drop: contents of
the pending keys whose strong count is zero in the given map. -/
def droppedSeqs (map : List (IStringKey × StoredString)) :
    List IStringKey → List BoxedStr
  | [] => []
  | k :: rest =>
    match lookupA map k with
    | some e =>
      if e.strong_count = 0 then e.inner :: droppedSeqs map rest
      else droppedSeqs map rest
    | none => droppedSeqs map rest

/-- The writer between batches: empty op log and (by the left-right contract
plus `absorbAllFirst = absorbAllSecond`) identical replicas. -/
def WriterQuiescent (css : ConcurrentStringStorage) : Prop :=
  css.writer.write_handle.oplog = [] ∧
  css.writer.write_handle.w_replica = css.writer.write_handle.r_replica

/-! Concrete states used to exercise the theorems on closed inputs. -/

/-- The empty replica (`InnerStringStorage::default`). -/
def issEmpty : InnerStringStorage :=
  { trie := [], map := [], strings_to_possibly_free := [] }

/-- The replica holding the single string `[7]` under key `0`. -/
def issW1 : InnerStringStorage :=
  { trie := [([7], 0)],
    map := [(0, { inner := [7], strong_count := 1 })],
    strings_to_possibly_free := [] }

/-- The storage after interning `[7]` into the fresh storage. -/
def cssW1 : ConcurrentStringStorage :=
  { writer :=
    { write_handle := { oplog := [], w_replica := issW1, r_replica := issW1 },
      next_key := 1,
      ops_channel_receiver := [] } }

/-- `cssW1` after a hit-path intern of `[7]` queued one `Retain 0`. -/
def cssW2 : ConcurrentStringStorage :=
  { writer :=
    { write_handle := { oplog := [], w_replica := issW1, r_replica := issW1 },
      next_key := 1,
      ops_channel_receiver := [ChannelOp.Retain 0] } }

/-- A replica with a droppable entry (key `0`, contents `[1]`, strong count
`0`) and a live entry (key `1`, contents `[2]`, strong count `3`), both
pending. -/
def issW4 : InnerStringStorage :=
  { trie := [([1], 0), ([2], 1)],
    map := [(0, { inner := [1], strong_count := 0 }),
            (1, { inner := [2], strong_count := 3 })],
    strings_to_possibly_free := [0, 1] }

/-- A replica with one entry of strong count `0` under key `3`. -/
def issW5 : InnerStringStorage :=
  { trie := [([9], 3)],
    map := [(3, { inner := [9], strong_count := 0 })],
    strings_to_possibly_free := [] }

/-- A replica with one entry of strong count `1` under key `2`. -/
def issW10 : InnerStringStorage :=
  { trie := [([4], 2)],
    map := [(2, { inner := [4], strong_count := 1 })],
    strings_to_possibly_free := [] }

/-- The replica after also interning `[9]` into `issW1`. -/
def issW7 : InnerStringStorage :=
  { trie := [([9], 1), ([7], 0)],
    map := [(1, { inner := [9], strong_count := 1 }),
            (0, { inner := [7], strong_count := 1 })],
    strings_to_possibly_free := [] }

/-- The storage after a miss-path intern of `[9]` on `cssW1`. -/
def cssW7 : ConcurrentStringStorage :=
  { writer :=
    { write_handle := { oplog := [], w_replica := issW7, r_replica := issW7 },
      next_key := 2,
      ops_channel_receiver := [] } }

/-! Association-list lemmas. -/

theorem lookupA_eraseA_self {α β : Type} [DecidableEq α] (l : List (α × β)) (a : α) :
    lookupA (eraseA l a) a = none := by
  induction l with
  | nil => rfl
  | cons p rest ih =>
    obtain ⟨k, v⟩ := p
    by_cases h : k = a <;> simp [eraseA, h, lookupA, ih]

theorem lookupA_eraseA_ne {α β : Type} [DecidableEq α] (l : List (α × β)) {a x : α}
    (h : x ≠ a) : lookupA (eraseA l a) x = lookupA l x := by
  induction l with
  | nil => rfl
  | cons p rest ih =>
    obtain ⟨k, v⟩ := p
    by_cases hk : k = a
    · subst hk
      have hkx : ¬ k = x := fun hh => h hh.symm
      simp [eraseA, lookupA, hkx, ih]
    · simp [eraseA, hk, lookupA, ih]

theorem eraseA_sublist {α β : Type} [DecidableEq α] (l : List (α × β)) (a : α) :
    List.Sublist (eraseA l a) l := by
  induction l with
  | nil => simp [eraseA]
  | cons p rest ih =>
    obtain ⟨k, v⟩ := p
    by_cases h : k = a
    · simpa [eraseA, h] using ih.cons (k, v)
    · simpa [eraseA, h] using ih.cons₂ (k, v)

theorem nodupKeys_eraseA {α β : Type} [DecidableEq α] {l : List (α × β)} (a : α)
    (hn : NodupKeys l) : NodupKeys (eraseA l a) :=
  List.Nodup.sublist (List.Sublist.map Prod.fst (eraseA_sublist l a)) hn

theorem lookupA_eq_none_iff {α β : Type} [DecidableEq α] (l : List (α × β)) (a : α) :
    lookupA l a = none ↔ a ∉ List.map Prod.fst l := by
  induction l with
  | nil => simp [lookupA]
  | cons p rest ih =>
    obtain ⟨k, v⟩ := p
    by_cases h : k = a
    · simp [lookupA, h]
    · have hak : ¬ a = k := fun hh => h hh.symm
      simp [lookupA, h, ih, hak]

theorem lookupA_insertA_self {α β : Type} [DecidableEq α] (l : List (α × β)) (a : α)
    (b : β) : lookupA (insertA l a b) a = some b := by
  simp [insertA, lookupA]

theorem lookupA_insertA_ne {α β : Type} [DecidableEq α] (l : List (α × β)) {a x : α}
    (b : β) (h : x ≠ a) : lookupA (insertA l a b) x = lookupA l x := by
  have : a ≠ x := fun hh => h hh.symm
  simp [insertA, lookupA, this, lookupA_eraseA_ne l h]

theorem nodupKeys_insertA {α β : Type} [DecidableEq α] {l : List (α × β)} (a : α)
    (b : β) (hn : NodupKeys l) : NodupKeys (insertA l a b) := by
  unfold NodupKeys insertA
  simp only [List.map_cons, List.nodup_cons]
  exact ⟨(lookupA_eq_none_iff (eraseA l a) a).mp (lookupA_eraseA_self l a),
    nodupKeys_eraseA a hn⟩

theorem eraseA_eq_self {α β : Type} [DecidableEq α] {l : List (α × β)} {a : α}
    (h : lookupA l a = none) : eraseA l a = l := by
  induction l with
  | nil => rfl
  | cons p rest ih =>
    obtain ⟨k, v⟩ := p
    by_cases hk : k = a
    · simp [lookupA, hk] at h
    · simp only [lookupA, if_neg hk] at h
      simp [eraseA, hk, ih h]

theorem length_eraseA {α β : Type} [DecidableEq α] {l : List (α × β)} {a : α} {b : β}
    (hn : NodupKeys l) (h : lookupA l a = some b) :
    (eraseA l a).length + 1 = l.length := by
  induction l with
  | nil => simp [lookupA] at h
  | cons p rest ih =>
    obtain ⟨k, v⟩ := p
    unfold NodupKeys at hn
    simp only [List.map_cons, List.nodup_cons] at hn
    by_cases hk : k = a
    · subst hk
      have hnone : lookupA rest k = none := (lookupA_eq_none_iff rest k).mpr hn.1
      simp [eraseA, eraseA_eq_self hnone]
    · simp only [lookupA, if_neg hk] at h
      simp [eraseA, hk, ih hn.2 h]

theorem length_insertA_none {α β : Type} [DecidableEq α] {l : List (α × β)} {a : α}
    (b : β) (h : lookupA l a = none) : (insertA l a b).length = l.length + 1 := by
  simp [insertA, eraseA_eq_self h]

theorem length_insertA_some {α β : Type} [DecidableEq α] {l : List (α × β)} {a : α}
    {c : β} (b : β) (hn : NodupKeys l) (h : lookupA l a = some c) :
    (insertA l a b).length = l.length := by
  simp only [insertA, List.length_cons]
  exact length_eraseA hn h

theorem lookup_reinsert {α β : Type} [DecidableEq α] {m : List (α × β)} {k : α}
    {e : β} (h : lookupA m k = some e) (j : α) :
    lookupA (insertA (eraseA m k) k e) j = lookupA m j := by
  by_cases hj : j = k
  · subst hj
    simp [lookupA_insertA_self, h]
  · rw [lookupA_insertA_ne _ _ hj, lookupA_eraseA_ne _ hj]

theorem lookupA_eraseA_entry {α β : Type} [DecidableEq α] {m : List (α × β)} {k j : α}
    {e : β} (h : lookupA (eraseA m k) j = some e) : lookupA m j = some e := by
  by_cases hj : j = k
  · subst hj
    rw [lookupA_eraseA_self] at h
    exact absurd h (by simp)
  · rwa [lookupA_eraseA_ne _ hj] at h

/-! Characterizations of the single-replica operations. -/

theorem is_droppable_iff (e : StoredString) :
    e.is_droppable = true ↔ e.strong_count = 0 := by
  simp [StoredString.is_droppable]

theorem wrapIsize_eq_self {n : Int} (h1 : isizeMin ≤ n) (h2 : n ≤ isizeMax) :
    wrapIsize n = n := by
  unfold isizeMin at h1
  unfold isizeMax at h2
  unfold wrapIsize
  omega

theorem retain_bounded {e : StoredString} (h1 : isizeMin < e.strong_count)
    (h2 : e.strong_count < isizeMax) :
    e.retain = { e with strong_count := e.strong_count + 1 } := by
  unfold StoredString.retain
  rw [wrapIsize_eq_self (by omega) (by omega)]

theorem retain_eq {s : InnerStringStorage} {k : IStringKey} {e : StoredString}
    (h : lookupA s.map k = some e) :
    s.retain k = some { s with map := insertA s.map k e.retain } := by
  unfold InnerStringStorage.retain
  rw [h]

theorem release_eq {s : InnerStringStorage} {k : IStringKey} {e : StoredString}
    (h : lookupA s.map k = some e) (hmin : isizeMin < e.strong_count) :
    s.release k =
      some { s with
        map := insertA s.map k { e with strong_count := e.strong_count - 1 },
        strings_to_possibly_free :=
          if e.strong_count - 1 = 0 then s.strings_to_possibly_free ++ [k]
          else s.strings_to_possibly_free } := by
  have hge : ¬ (e.strong_count - 1 < isizeMin) := by omega
  simp only [InnerStringStorage.release, StoredString.release, checkedSubIsize, h,
    hge, if_false]
  by_cases hz : e.strong_count - 1 = 0
  · simp [StoredString.is_droppable, hz]
  · simp [StoredString.is_droppable, hz]

theorem release_inv {s s' : InnerStringStorage} {k : IStringKey}
    (h : s.release k = some s') :
    ∃ e c, lookupA s.map k = some e ∧ checkedSubIsize e.strong_count 1 = some c ∧
      s'.trie = s.trie ∧ s'.map = insertA s.map k { e with strong_count := c } := by
  cases hl : lookupA s.map k with
  | none => simp [InnerStringStorage.release, hl] at h
  | some e =>
    cases hc : checkedSubIsize e.strong_count 1 with
    | none => simp [InnerStringStorage.release, StoredString.release, hl, hc] at h
    | some c =>
      simp only [InnerStringStorage.release, StoredString.release, hl, hc] at h
      by_cases hd : ({ e with strong_count := c } : StoredString).is_droppable = true
      · simp only [hd, if_true] at h
        cases h
        exact ⟨e, c, rfl, hc, rfl, rfl⟩
      · simp only [hd, if_false, Bool.false_eq_true] at h
        cases h
        exact ⟨e, c, rfl, hc, rfl, rfl⟩

theorem retain_inv {s s' : InnerStringStorage} {k : IStringKey}
    (h : s.retain k = some s') :
    ∃ e, lookupA s.map k = some e ∧ s'.trie = s.trie ∧
      s'.strings_to_possibly_free = s.strings_to_possibly_free ∧
      s'.map = insertA s.map k e.retain := by
  unfold InnerStringStorage.retain at h
  cases hl : lookupA s.map k with
  | none => rw [hl] at h; exact absurd h (by simp)
  | some e =>
    rw [hl] at h
    cases h
    exact ⟨e, rfl, rfl, rfl, rfl⟩

/-! The two absorb sides compute the same replica contents: the source bodies
differ only in `clone_with_aliasing` versus consuming the op's string and in
`drop` versus `free` of the removed `BoxedStr`, none of which affects the
stored data. -/

theorem processPending_first_eq_second :
    ∀ (p : List IStringKey) (t : List (BoxedStr × IStringKey))
      (m : List (IStringKey × StoredString)),
      processPendingFirst t m p = processPendingSecond t m p := by
  intro p
  induction p with
  | nil => intro t m; rfl
  | cons key rest ih =>
    intro t m
    simp only [processPendingFirst, processPendingSecond]
    cases lookupA m key with
    | none => rfl
    | some stored =>
      by_cases hd : stored.is_droppable = true <;> simp [hd, ih]

theorem absorb_first_eq_second (s : InnerStringStorage) (op : StringStorageOp) :
    s.absorb_first op = s.absorb_second op := by
  cases op with
  | Insert key string => rfl
  | Retain key => rfl
  | Release key => rfl
  | DropUnusedStrings =>
    simp only [InnerStringStorage.absorb_first, InnerStringStorage.absorb_second,
      processPending_first_eq_second]

theorem absorbAll_first_eq_second :
    ∀ (ops : List StringStorageOp) (s : InnerStringStorage),
      absorbAllFirst s ops = absorbAllSecond s ops := by
  intro ops
  induction ops with
  | nil => intro s; rfl
  | cons op rest ih =>
    intro s
    simp only [absorbAllFirst, absorbAllSecond, absorb_first_eq_second]
    cases s.absorb_second op with
    | none => rfl
    | some s2 => exact ih s2

theorem absorbAllFirst_append (s : InnerStringStorage)
    (l1 l2 : List StringStorageOp) :
    absorbAllFirst s (l1 ++ l2) =
      match absorbAllFirst s l1 with
      | none => none
      | some s2 => absorbAllFirst s2 l2 := by
  induction l1 generalizing s with
  | nil => simp [absorbAllFirst]
  | cons op rest ih =>
    simp only [List.cons_append, absorbAllFirst]
    cases s.absorb_first op with
    | none => rfl
    | some s2 => exact ih s2

/-! Frame and characterization lemmas for the `DropUnusedStrings` loop. -/

theorem processPendingFirst_trie_none :
    ∀ (p : List IStringKey) (t : List (BoxedStr × IStringKey))
      (m : List (IStringKey × StoredString)) t' m',
      processPendingFirst t m p = some (t', m') →
      ∀ sq, lookupA t sq = none → lookupA t' sq = none := by
  intro p
  induction p with
  | nil =>
    intro t m t' m' h sq hsq
    simp only [processPendingFirst] at h
    cases h
    exact hsq
  | cons key rest ih =>
    intro t m t' m' h sq hsq
    simp only [processPendingFirst] at h
    cases hl : lookupA m key with
    | none => rw [hl] at h; exact absurd h (by simp)
    | some stored =>
      rw [hl] at h
      by_cases hd : stored.is_droppable = true
      · simp only [hd, if_true] at h
        refine ih _ _ _ _ h sq ?_
        by_cases hsq2 : sq = stored.inner
        · subst hsq2; exact lookupA_eraseA_self _ _
        · rw [lookupA_eraseA_ne _ hsq2]; exact hsq
      · simp only [hd, if_false, Bool.false_eq_true] at h
        exact ih _ _ _ _ h sq hsq

theorem processPendingFirst_map_frame :
    ∀ (p : List IStringKey) (t : List (BoxedStr × IStringKey))
      (m : List (IStringKey × StoredString)) t' m',
      processPendingFirst t m p = some (t', m') →
      ∀ j, j ∉ p → lookupA m' j = lookupA m j := by
  intro p
  induction p with
  | nil =>
    intro t m t' m' h j hj
    simp only [processPendingFirst] at h
    cases h
    rfl
  | cons key rest ih =>
    intro t m t' m' h j hj
    have hjk : j ≠ key := fun hh => hj (hh ▸ List.mem_cons_self key rest)
    have hjr : j ∉ rest := fun hh => hj (List.mem_cons_of_mem key hh)
    simp only [processPendingFirst] at h
    cases hl : lookupA m key with
    | none => rw [hl] at h; exact absurd h (by simp)
    | some stored =>
      rw [hl] at h
      by_cases hd : stored.is_droppable = true
      · simp only [hd, if_true] at h
        rw [ih _ _ _ _ h j hjr]
        exact lookupA_eraseA_ne _ hjk
      · simp only [hd, if_false, Bool.false_eq_true] at h
        rw [ih _ _ _ _ h j hjr]
        exact lookup_reinsert hl j

theorem droppedSeqs_congr :
    ∀ (p : List IStringKey) (m1 m2 : List (IStringKey × StoredString)),
      (∀ x ∈ p, lookupA m1 x = lookupA m2 x) →
      droppedSeqs m1 p = droppedSeqs m2 p := by
  intro p
  induction p with
  | nil => intro m1 m2 _; rfl
  | cons key rest ih =>
    intro m1 m2 hagree
    have hk := hagree key (List.mem_cons_self key rest)
    have hrest : ∀ x ∈ rest, lookupA m1 x = lookupA m2 x :=
      fun x hx => hagree x (List.mem_cons_of_mem key hx)
    simp only [droppedSeqs, hk, ih m1 m2 hrest]

theorem processPendingFirst_trie_frame :
    ∀ (p : List IStringKey) (t : List (BoxedStr × IStringKey))
      (m : List (IStringKey × StoredString)) t' m',
      processPendingFirst t m p = some (t', m') → p.Nodup →
      ∀ sq, sq ∉ droppedSeqs m p → lookupA t' sq = lookupA t sq := by
  intro p
  induction p with
  | nil =>
    intro t m t' m' h _ sq _
    simp only [processPendingFirst] at h
    cases h
    rfl
  | cons key rest ih =>
    intro t m t' m' h hnd sq hsq
    have hndr : rest.Nodup := (List.nodup_cons.mp hnd).2
    have hkr : key ∉ rest := (List.nodup_cons.mp hnd).1
    simp only [processPendingFirst] at h
    cases hl : lookupA m key with
    | none => rw [hl] at h; exact absurd h (by simp)
    | some stored =>
      rw [hl] at h
      by_cases hd : stored.is_droppable = true
      · have hz : stored.strong_count = 0 := (is_droppable_iff stored).mp hd
        simp only [hd, if_true] at h
        have hagree : ∀ x ∈ rest, lookupA (eraseA m key) x = lookupA m x :=
          fun x hx => lookupA_eraseA_ne _ (fun hh => hkr (hh ▸ hx))
        have hds : droppedSeqs m (key :: rest) =
            stored.inner :: droppedSeqs m rest := by
          simp only [droppedSeqs, hl, hz, if_true]
        rw [hds] at hsq
        have hsq1 : sq ≠ stored.inner := fun hh => hsq (hh ▸ List.mem_cons_self _ _)
        have hsq2 : sq ∉ droppedSeqs (eraseA m key) rest := by
          rw [droppedSeqs_congr rest _ _ hagree]
          exact fun hh => hsq (List.mem_cons_of_mem _ hh)
        rw [ih _ _ _ _ h hndr sq hsq2]
        exact lookupA_eraseA_ne _ hsq1
      · have hz : ¬ stored.strong_count = 0 :=
          fun hh => hd ((is_droppable_iff stored).mpr hh)
        simp only [hd, if_false, Bool.false_eq_true] at h
        have hagree : ∀ x ∈ rest,
            lookupA (insertA (eraseA m key) key stored) x = lookupA m x :=
          fun x _ => lookup_reinsert hl x
        have hds : droppedSeqs m (key :: rest) = droppedSeqs m rest := by
          simp only [droppedSeqs, hl, hz, if_false]
        rw [hds] at hsq
        have hsq2 : sq ∉ droppedSeqs (insertA (eraseA m key) key stored) rest := by
          rw [droppedSeqs_congr rest _ _ hagree]
          exact hsq
        exact ih _ _ _ _ h hndr sq hsq2

theorem processPendingFirst_dropped :
    ∀ (p : List IStringKey) (t : List (BoxedStr × IStringKey))
      (m : List (IStringKey × StoredString)) t' m',
      processPendingFirst t m p = some (t', m') → p.Nodup →
      ∀ k e, k ∈ p → lookupA m k = some e → e.strong_count = 0 →
      lookupA m' k = none ∧ lookupA t' e.inner = none := by
  intro p
  induction p with
  | nil => intro t m t' m' h _ k e hk; exact absurd hk (List.not_mem_nil k)
  | cons key rest ih =>
    intro t m t' m' h hnd k e hk hke hz
    have hndr : rest.Nodup := (List.nodup_cons.mp hnd).2
    have hkr : key ∉ rest := (List.nodup_cons.mp hnd).1
    simp only [processPendingFirst] at h
    cases hl : lookupA m key with
    | none => rw [hl] at h; exact absurd h (by simp)
    | some stored =>
      rw [hl] at h
      by_cases hkey : k = key
      · subst hkey
        have hse : stored = e := by rw [hl] at hke; exact (Option.some.injEq _ _).mp hke
        subst hse
        have hd : stored.is_droppable = true := (is_droppable_iff stored).mpr hz
        simp only [hd, if_true] at h
        constructor
        · rw [processPendingFirst_map_frame _ _ _ _ _ h k hkr]
          exact lookupA_eraseA_self _ _
        · exact processPendingFirst_trie_none _ _ _ _ _ h _ (lookupA_eraseA_self _ _)
      · have hkrest : k ∈ rest := by
          cases List.mem_cons.mp hk with
          | inl hh => exact absurd hh hkey
          | inr hh => exact hh
        by_cases hd : stored.is_droppable = true
        · simp only [hd, if_true] at h
          refine ih _ _ _ _ h hndr k e hkrest ?_ hz
          rw [lookupA_eraseA_ne _ hkey]
          exact hke
        · simp only [hd, if_false, Bool.false_eq_true] at h
          refine ih _ _ _ _ h hndr k e hkrest ?_ hz
          rw [lookup_reinsert hl k]
          exact hke

theorem processPendingFirst_kept :
    ∀ (p : List IStringKey) (t : List (BoxedStr × IStringKey))
      (m : List (IStringKey × StoredString)) t' m',
      processPendingFirst t m p = some (t', m') → p.Nodup →
      ∀ k e, k ∈ p → lookupA m k = some e → e.strong_count ≠ 0 →
      lookupA m' k = some e := by
  intro p
  induction p with
  | nil => intro t m t' m' h _ k e hk; exact absurd hk (List.not_mem_nil k)
  | cons key rest ih =>
    intro t m t' m' h hnd k e hk hke hz
    have hndr : rest.Nodup := (List.nodup_cons.mp hnd).2
    have hkr : key ∉ rest := (List.nodup_cons.mp hnd).1
    simp only [processPendingFirst] at h
    cases hl : lookupA m key with
    | none => rw [hl] at h; exact absurd h (by simp)
    | some stored =>
      rw [hl] at h
      by_cases hkey : k = key
      · subst hkey
        have hse : stored = e := by rw [hl] at hke; exact (Option.some.injEq _ _).mp hke
        subst hse
        have hd : ¬ stored.is_droppable = true :=
          fun hh => hz ((is_droppable_iff stored).mp hh)
        simp only [hd, if_false, Bool.false_eq_true] at h
        rw [processPendingFirst_map_frame _ _ _ _ _ h k hkr]
        rw [lookup_reinsert hl k]
        exact hke
      · have hkrest : k ∈ rest := by
          cases List.mem_cons.mp hk with
          | inl hh => exact absurd hh hkey
          | inr hh => exact hh
        by_cases hd : stored.is_droppable = true
        · simp only [hd, if_true] at h
          refine ih _ _ _ _ h hndr k e hkrest ?_ hz
          rw [lookupA_eraseA_ne _ hkey]
          exact hke
        · simp only [hd, if_false, Bool.false_eq_true] at h
          refine ih _ _ _ _ h hndr k e hkrest ?_ hz
          rw [lookup_reinsert hl k]
          exact hke

/-! Writer-level lemmas. -/

theorem drainLoop_spec :
    ∀ (c : List ChannelOp) (wh : WriteHandle),
      (drainLoop wh c).oplog = wh.oplog ++ List.map channelToStorageOp c ∧
      (drainLoop wh c).w_replica = wh.w_replica ∧
      (drainLoop wh c).r_replica = wh.r_replica := by
  intro c
  induction c with
  | nil => intro wh; simp [drainLoop]
  | cons op rest ih =>
    intro wh
    obtain ⟨h1, h2, h3⟩ := ih (wh.append (channelToStorageOp op))
    refine ⟨?_, h2, h3⟩
    rw [drainLoop, h1]
    simp [WriteHandle.append]

theorem publish_inv {wh wh2 : WriteHandle} (h : wh.publish = some wh2) :
    absorbAllFirst wh.w_replica wh.oplog = some wh2.r_replica ∧
    absorbAllSecond wh.r_replica wh.oplog = some wh2.w_replica ∧
    wh2.oplog = [] := by
  unfold WriteHandle.publish at h
  cases hf : absorbAllFirst wh.w_replica wh.oplog with
  | none => rw [hf] at h; exact absurd h (by simp)
  | some newRead =>
    rw [hf] at h
    cases hs : absorbAllSecond wh.r_replica wh.oplog with
    | none => rw [hs] at h; exact absurd h (by simp)
    | some newWrite =>
      rw [hs] at h
      cases h
      exact ⟨rfl, rfl, rfl⟩

theorem dp_inv {w : UniqueWriter} {str : BoxedStr} {w2 : UniqueWriter}
    {key : IStringKey} (h : w.do_pending_ops_and_insert str = some (w2, key)) :
    key = w.next_key ∧
    w.next_key + 1 ≤ u32Max ∧
    w2.next_key = w.next_key + 1 ∧
    w2.ops_channel_receiver = [] ∧
    w2.write_handle.oplog = [] ∧
    absorbAllFirst w.write_handle.w_replica
      (w.write_handle.oplog ++ List.map channelToStorageOp w.ops_channel_receiver ++
        [StringStorageOp.Insert w.next_key str, StringStorageOp.DropUnusedStrings])
      = some w2.write_handle.r_replica ∧
    absorbAllSecond w.write_handle.r_replica
      (w.write_handle.oplog ++ List.map channelToStorageOp w.ops_channel_receiver ++
        [StringStorageOp.Insert w.next_key str, StringStorageOp.DropUnusedStrings])
      = some w2.write_handle.w_replica := by
  unfold UniqueWriter.do_pending_ops_and_insert at h
  simp only [UniqueWriter.drain_channel_ops] at h
  cases hadd : checkedAddU32 w.next_key 1 with
  | none => rw [hadd] at h; exact absurd h (by simp)
  | some nk =>
    rw [hadd] at h
    have hnk : nk = w.next_key + 1 ∧ w.next_key + 1 ≤ u32Max := by
      unfold checkedAddU32 at hadd
      by_cases hle : w.next_key + 1 ≤ u32Max
      · rw [if_pos hle] at hadd
        cases hadd
        exact ⟨rfl, hle⟩
      · rw [if_neg hle] at hadd
        exact absurd hadd (by simp)
    set whb := ((drainLoop w.write_handle w.ops_channel_receiver).append
        (StringStorageOp.Insert w.next_key str)).append
        StringStorageOp.DropUnusedStrings with hwhb
    cases hpub : whb.publish with
    | none => rw [hpub] at h; exact absurd h (by simp)
    | some wh2 =>
      rw [hpub] at h
      cases h
      obtain ⟨hf, hs, hlog⟩ := publish_inv hpub
      obtain ⟨hd1, hd2, hd3⟩ := drainLoop_spec w.ops_channel_receiver w.write_handle
      have hoplog : whb.oplog =
          w.write_handle.oplog ++ List.map channelToStorageOp w.ops_channel_receiver ++
            [StringStorageOp.Insert w.next_key str, StringStorageOp.DropUnusedStrings] := by
        rw [hwhb]
        simp [WriteHandle.append, hd1]
      have hwr : whb.w_replica = w.write_handle.w_replica := by
        rw [hwhb]; simp [WriteHandle.append, hd2]
      have hrr : whb.r_replica = w.write_handle.r_replica := by
        rw [hwhb]; simp [WriteHandle.append, hd3]
      rw [hoplog, hwr] at hf
      rw [hoplog, hrr] at hs
      exact ⟨rfl, hnk.2, hnk.1, rfl, hlog, hf, hs⟩

theorem insert_or_retain_hit_eq {css : ConcurrentStringStorage} {str : BoxedStr}
    {k : IStringKey} (hfound : lookupA css.readable.trie str = some k) :
    css.insert_or_retain str = some (ThreadLocalReader.retain css k, k) := by
  unfold ConcurrentStringStorage.insert_or_retain
  rw [hfound]

theorem insert_or_retain_miss_inv {css css' : ConcurrentStringStorage}
    {str : BoxedStr} {k : IStringKey}
    (hmiss : lookupA css.readable.trie str = none)
    (h : css.insert_or_retain str = some (css', k)) :
    css.writer.do_pending_ops_and_insert str = some (css'.writer, k) := by
  unfold ConcurrentStringStorage.insert_or_retain at h
  rw [hmiss] at h
  cases hdp : css.writer.do_pending_ops_and_insert str with
  | none => rw [hdp] at h; exact absurd h (by simp)
  | some p =>
    obtain ⟨w2, key⟩ := p
    rw [hdp] at h
    cases h
    rfl

/-! Retain/Release batches leave the trie and the set of stored sequences
unchanged. -/

theorem channelToStorageOp_rr (op : ChannelOp) : IsRROp (channelToStorageOp op) := by
  cases op <;> simp [channelToStorageOp, IsRROp]

theorem rr_absorb_first {s s' : InnerStringStorage} {op : StringStorageOp}
    (hrr : IsRROp op) (h : s.absorb_first op = some s') :
    s'.trie = s.trie ∧
    ∀ j e2, lookupA s'.map j = some e2 →
      ∃ e, lookupA s.map j = some e ∧ e2.inner = e.inner := by
  cases op with
  | Insert key string => exact absurd hrr (by simp [IsRROp])
  | DropUnusedStrings => exact absurd hrr (by simp [IsRROp])
  | Retain key =>
    obtain ⟨e, hl, htrie, hpend, hmap⟩ := retain_inv h
    refine ⟨htrie, ?_⟩
    intro j e2 hj
    rw [hmap] at hj
    by_cases hjk : j = key
    · subst hjk
      rw [lookupA_insertA_self] at hj
      cases hj
      exact ⟨e, hl, rfl⟩
    · rw [lookupA_insertA_ne _ _ hjk] at hj
      exact ⟨e2, hj, rfl⟩
  | Release key =>
    obtain ⟨e, c, hl, hc, htrie, hmap⟩ := release_inv h
    refine ⟨htrie, ?_⟩
    intro j e2 hj
    rw [hmap] at hj
    by_cases hjk : j = key
    · subst hjk
      rw [lookupA_insertA_self] at hj
      cases hj
      exact ⟨e, hl, rfl⟩
    · rw [lookupA_insertA_ne _ _ hjk] at hj
      exact ⟨e2, hj, rfl⟩

theorem rr_absorbAll_first :
    ∀ (ops : List StringStorageOp) (s s' : InnerStringStorage),
      (∀ op ∈ ops, IsRROp op) → absorbAllFirst s ops = some s' →
      s'.trie = s.trie ∧
      ∀ j e2, lookupA s'.map j = some e2 →
        ∃ e, lookupA s.map j = some e ∧ e2.inner = e.inner := by
  intro ops
  induction ops with
  | nil =>
    intro s s' _ h
    simp only [absorbAllFirst] at h
    cases h
    exact ⟨rfl, fun j e2 hj => ⟨e2, hj, rfl⟩⟩
  | cons op rest ih =>
    intro s s' hrr h
    simp only [absorbAllFirst] at h
    cases ha : s.absorb_first op with
    | none => rw [ha] at h; exact absurd h (by simp)
    | some s2 =>
      rw [ha] at h
      obtain ⟨ht1, hm1⟩ := rr_absorb_first (hrr op (List.mem_cons_self op rest)) ha
      obtain ⟨ht2, hm2⟩ := ih s2 s' (fun o ho => hrr o (List.mem_cons_of_mem op ho)) h
      refine ⟨ht2.trans ht1, ?_⟩
      intro j e2 hj
      obtain ⟨e1, hj1, hi1⟩ := hm2 j e2 hj
      obtain ⟨e0, hj0, hi0⟩ := hm1 j e1 hj1
      exact ⟨e0, hj0, hi1.trans hi0⟩

/-! Key-domain lemmas: absorbing ops never makes a key appear except by an
`Insert` carrying that key. -/

theorem processPendingFirst_keys :
    ∀ (p : List IStringKey) (t : List (BoxedStr × IStringKey))
      (m : List (IStringKey × StoredString)) t' m',
      processPendingFirst t m p = some (t', m') →
      ∀ j, (lookupA m' j).isSome = true → (lookupA m j).isSome = true := by
  intro p
  induction p with
  | nil =>
    intro t m t' m' h j hj
    simp only [processPendingFirst] at h
    cases h
    exact hj
  | cons key rest ih =>
    intro t m t' m' h j hj
    simp only [processPendingFirst] at h
    cases hl : lookupA m key with
    | none => rw [hl] at h; exact absurd h (by simp)
    | some stored =>
      rw [hl] at h
      by_cases hd : stored.is_droppable = true
      · simp only [hd, if_true] at h
        have h2 := ih _ _ _ _ h j hj
        cases hx : lookupA (eraseA m key) j with
        | none => rw [hx] at h2; exact absurd h2 (by simp)
        | some v => rw [lookupA_eraseA_entry hx]; rfl
      · simp only [hd, if_false, Bool.false_eq_true] at h
        have h2 := ih _ _ _ _ h j hj
        rwa [lookup_reinsert hl j] at h2

theorem absorb_first_keys {s s' : InnerStringStorage} {op : StringStorageOp}
    (h : s.absorb_first op = some s') (j : IStringKey)
    (hj : (lookupA s'.map j).isSome = true) :
    (lookupA s.map j).isSome = true ∨ ∃ str, op = StringStorageOp.Insert j str := by
  cases op with
  | Insert key string =>
    cases h
    by_cases hjk : j = key
    · subst hjk; exact Or.inr ⟨string, rfl⟩
    · rw [lookupA_insertA_ne _ _ hjk] at hj
      exact Or.inl hj
  | Retain key =>
    obtain ⟨e, hl, _, _, hmap⟩ := retain_inv h
    rw [hmap] at hj
    by_cases hjk : j = key
    · subst hjk; rw [hl]; exact Or.inl rfl
    · rw [lookupA_insertA_ne _ _ hjk] at hj
      exact Or.inl hj
  | Release key =>
    obtain ⟨e, c, hl, _, _, hmap⟩ := release_inv h
    rw [hmap] at hj
    by_cases hjk : j = key
    · subst hjk; rw [hl]; exact Or.inl rfl
    · rw [lookupA_insertA_ne _ _ hjk] at hj
      exact Or.inl hj
  | DropUnusedStrings =>
    unfold InnerStringStorage.absorb_first at h
    cases hp : processPendingFirst s.trie s.map s.strings_to_possibly_free with
    | none => rw [hp] at h; exact absurd h (by simp)
    | some q =>
      obtain ⟨t2, m2⟩ := q
      rw [hp] at h
      cases h
      exact Or.inl (processPendingFirst_keys _ _ _ _ _ hp j hj)

theorem mem_insertKeysOf_cons {j : IStringKey} {op : StringStorageOp}
    {rest : List StringStorageOp} :
    j ∈ insertKeysOf (op :: rest) ↔
      (∃ str, op = StringStorageOp.Insert j str) ∨ j ∈ insertKeysOf rest := by
  cases op with
  | Insert key string =>
    simp only [insertKeysOf, List.filterMap_cons]
    constructor
    · intro hmem
      cases List.mem_cons.mp hmem with
      | inl hh => exact Or.inl ⟨string, by rw [hh]⟩
      | inr hh => exact Or.inr hh
    · intro hor
      cases hor with
      | inl hh =>
        obtain ⟨str2, hstr⟩ := hh
        cases hstr
        exact List.mem_cons_self _ _
      | inr hh => exact List.mem_cons_of_mem _ hh
  | Retain key => simp [insertKeysOf, List.filterMap_cons]
  | Release key => simp [insertKeysOf, List.filterMap_cons]
  | DropUnusedStrings => simp [insertKeysOf, List.filterMap_cons]

theorem absorbAllFirst_keys :
    ∀ (ops : List StringStorageOp) (s s' : InnerStringStorage),
      absorbAllFirst s ops = some s' →
      ∀ j, (lookupA s'.map j).isSome = true →
        (lookupA s.map j).isSome = true ∨ j ∈ insertKeysOf ops := by
  intro ops
  induction ops with
  | nil =>
    intro s s' h j hj
    simp only [absorbAllFirst] at h
    cases h
    exact Or.inl hj
  | cons op rest ih =>
    intro s s' h j hj
    simp only [absorbAllFirst] at h
    cases ha : s.absorb_first op with
    | none => rw [ha] at h; exact absurd h (by simp)
    | some s2 =>
      rw [ha] at h
      cases ih s2 s' h j hj with
      | inl h2 =>
        cases absorb_first_keys ha j h2 with
        | inl h3 => exact Or.inl h3
        | inr h3 => exact Or.inr (mem_insertKeysOf_cons.mpr (Or.inl h3))
      | inr h2 => exact Or.inr (mem_insertKeysOf_cons.mpr (Or.inr h2))

/-! The central preservation lemma behind deduplication: once `Insert key str`
has placed the fresh entry, no step of the following `DropUnusedStrings` can
remove the binding for `str`, because every entry whose contents equal `str`
has a nonzero strong count. -/

theorem processPendingFirst_preserve (str : BoxedStr) (k1 : IStringKey)
    (estar : StoredString) :
    ∀ (p : List IStringKey) (t : List (BoxedStr × IStringKey))
      (m : List (IStringKey × StoredString)) t' m',
      processPendingFirst t m p = some (t', m') →
      (∀ j e, lookupA m j = some e → e.inner = str → e.strong_count ≠ 0) →
      lookupA m k1 = some estar → estar.inner = str →
      lookupA t str = some k1 →
      lookupA t' str = some k1 ∧ lookupA m' k1 = some estar := by
  intro p
  induction p with
  | nil =>
    intro t m t' m' h _ hk1 _ ht
    simp only [processPendingFirst] at h
    cases h
    exact ⟨ht, hk1⟩
  | cons key rest ih =>
    intro t m t' m' h hA hk1 hstar ht
    simp only [processPendingFirst] at h
    cases hl : lookupA m key with
    | none => rw [hl] at h; exact absurd h (by simp)
    | some stored =>
      rw [hl] at h
      by_cases hd : stored.is_droppable = true
      · have hz : stored.strong_count = 0 := (is_droppable_iff stored).mp hd
        have hinner : stored.inner ≠ str := fun hh => hA key stored hl hh hz
        have hkey : k1 ≠ key := by
          intro hh
          subst hh
          rw [hl] at hk1
          have hse : stored = estar := Option.some_inj.mp hk1
          exact hA k1 stored hl (by rw [hse]; exact hstar) hz
        simp only [hd, if_true] at h
        refine ih _ _ _ _ h ?_ ?_ hstar ?_
        · intro j e hj hi
          exact hA j e (lookupA_eraseA_entry hj) hi
        · rw [lookupA_eraseA_ne _ hkey]
          exact hk1
        · rw [lookupA_eraseA_ne _ (Ne.symm hinner)]
          exact ht
      · simp only [hd, if_false, Bool.false_eq_true] at h
        refine ih _ _ _ _ h ?_ ?_ hstar ht
        · intro j e hj hi
          rw [lookup_reinsert hl j] at hj
          exact hA j e hj hi
        · rw [lookup_reinsert hl k1]
          exact hk1

/-- Postcondition of a successful `insert_or_retain`, on both paths: the
readable replica's trie maps the string to the returned key and the map stores
the string's contents under that key. -/
theorem insert_or_retain_post {css css' : ConcurrentStringStorage}
    {str : BoxedStr} {k : IStringKey}
    (hq : WriterQuiescent css) (hco : Coherent css.readable)
    (h : css.insert_or_retain str = some (css', k)) :
    lookupA css'.readable.trie str = some k ∧
    ∃ e, lookupA css'.readable.map k = some e ∧ e.inner = str := by
  obtain ⟨hlog, hrepl⟩ := hq
  cases hlook : lookupA css.readable.trie str with
  | some found_key =>
    rw [insert_or_retain_hit_eq hlook] at h
    have hpair := Option.some_inj.mp h
    have hcss : css' = ThreadLocalReader.retain css found_key :=
      ((Prod.ext_iff.mp hpair).1).symm
    have hk : k = found_key := ((Prod.ext_iff.mp hpair).2).symm
    subst hcss
    rw [hk]
    obtain ⟨e, he, hi⟩ := hco.trie_to_map str found_key hlook
    exact ⟨hlook, e, he, hi⟩
  | none =>
    have hdp := insert_or_retain_miss_inv hlook h
    obtain ⟨hkey, hble, hnk2, hch2, hlog2, hf, hsecond⟩ := dp_inv hdp
    rw [hlog, List.nil_append, hrepl] at hf
    rw [absorbAllFirst_append] at hf
    cases hrr : absorbAllFirst css.writer.write_handle.r_replica
        (List.map channelToStorageOp css.writer.ops_channel_receiver) with
    | none =>
      rw [hrr] at hf
      exact absurd hf (by simp)
    | some s2 =>
      rw [hrr] at hf
      have hrrops : ∀ op ∈ List.map channelToStorageOp css.writer.ops_channel_receiver,
          IsRROp op := by
        intro op hop
        obtain ⟨c, _, hc⟩ := List.mem_map.mp hop
        rw [← hc]
        exact channelToStorageOp_rr c
      obtain ⟨ht2, hm2⟩ := rr_absorbAll_first _ _ _ hrrops hrr
      simp only [absorbAllFirst, InnerStringStorage.absorb_first] at hf
      cases hp : processPendingFirst (insertA s2.trie str css.writer.next_key)
          (insertA s2.map css.writer.next_key (StoredString.new str))
          s2.strings_to_possibly_free with
      | none => simp [hp] at hf
      | some q =>
        obtain ⟨t4, m4⟩ := q
        simp only [hp] at hf
        have hR : css'.writer.write_handle.r_replica =
            { trie := t4, map := m4, strings_to_possibly_free := [] } :=
          (Option.some_inj.mp hf).symm
        have hA : ∀ j e,
            lookupA (insertA s2.map css.writer.next_key (StoredString.new str)) j =
              some e → e.inner = str → e.strong_count ≠ 0 := by
          intro j e hj hi
          by_cases hjk : j = css.writer.next_key
          · subst hjk
            rw [lookupA_insertA_self] at hj
            cases hj
            simp [StoredString.new]
          · rw [lookupA_insertA_ne _ _ hjk] at hj
            obtain ⟨e0, hj0, hi0⟩ := hm2 j e hj
            have hmt := hco.map_to_trie j e0 hj0
            rw [← hi0, hi] at hmt
            rw [hmt] at hlook
            exact absurd hlook (by simp)
        have hk1 : lookupA (insertA s2.map css.writer.next_key (StoredString.new str))
            css.writer.next_key = some (StoredString.new str) :=
          lookupA_insertA_self _ _ _
        have ht3 : lookupA (insertA s2.trie str css.writer.next_key) str =
            some css.writer.next_key :=
          lookupA_insertA_self _ _ _
        obtain ⟨hta, hma⟩ := processPendingFirst_preserve str css.writer.next_key
          (StoredString.new str) _ _ _ _ _ hp hA hk1 rfl ht3
        subst hkey
        refine ⟨?_, StoredString.new str, ?_, rfl⟩
        · show lookupA css'.writer.write_handle.r_replica.trie str =
            some css.writer.next_key
          rw [hR]
          exact hta
        · show lookupA css'.writer.write_handle.r_replica.map css.writer.next_key =
            some (StoredString.new str)
          rw [hR]
          exact hma

/-! Preservation of trie/map agreement. -/

theorem processPendingFirst_coherent :
    ∀ (p : List IStringKey) (t : List (BoxedStr × IStringKey))
      (m : List (IStringKey × StoredString)) t' m',
      processPendingFirst t m p = some (t', m') →
      NodupKeys t → NodupKeys m →
      (∀ str k, lookupA t str = some k → ∃ e, lookupA m k = some e ∧ e.inner = str) →
      (∀ k e, lookupA m k = some e → lookupA t e.inner = some k) →
      t.length = m.length →
      NodupKeys t' ∧ NodupKeys m' ∧
      (∀ str k, lookupA t' str = some k → ∃ e, lookupA m' k = some e ∧ e.inner = str) ∧
      (∀ k e, lookupA m' k = some e → lookupA t' e.inner = some k) ∧
      t'.length = m'.length := by
  intro p
  induction p with
  | nil =>
    intro t m t' m' h hnt hnm htm hmt hlen
    simp only [processPendingFirst] at h
    cases h
    exact ⟨hnt, hnm, htm, hmt, hlen⟩
  | cons key rest ih =>
    intro t m t' m' h hnt hnm htm hmt hlen
    simp only [processPendingFirst] at h
    cases hl : lookupA m key with
    | none => rw [hl] at h; exact absurd h (by simp)
    | some stored =>
      rw [hl] at h
      have htkey : lookupA t stored.inner = some key := hmt key stored hl
      by_cases hd : stored.is_droppable = true
      · simp only [hd, if_true] at h
        refine ih _ _ _ _ h (nodupKeys_eraseA _ hnt) (nodupKeys_eraseA _ hnm)
          ?_ ?_ ?_
        · intro str k hk
          have hk0 : lookupA t str = some k := lookupA_eraseA_entry hk
          obtain ⟨e, he, hi⟩ := htm str k hk0
          have hkk : k ≠ key := by
            intro hh
            subst hh
            rw [hl] at he
            have hse : e = stored := (Option.some_inj.mp he).symm
            rw [← hi, hse] at hk
            rw [lookupA_eraseA_self] at hk
            exact absurd hk (by simp)
          rw [lookupA_eraseA_ne _ hkk]
          exact ⟨e, he, hi⟩
        · intro k e he
          have hkk : k ≠ key := by
            intro hh
            subst hh
            rw [lookupA_eraseA_self] at he
            exact absurd he (by simp)
          rw [lookupA_eraseA_ne _ hkk] at he
          have hti := hmt k e he
          have hne : e.inner ≠ stored.inner := by
            intro hh
            rw [hh, htkey] at hti
            exact hkk (Option.some_inj.mp hti).symm
          rw [lookupA_eraseA_ne _ hne]
          exact hti
        · have h1 := length_eraseA hnt htkey
          have h2 := length_eraseA hnm hl
          omega
      · simp only [hd, if_false, Bool.false_eq_true] at h
        refine ih _ _ _ _ h hnt
          (nodupKeys_insertA _ _ (nodupKeys_eraseA _ hnm)) ?_ ?_ ?_
        · intro str k hk
          obtain ⟨e, he, hi⟩ := htm str k hk
          rw [← lookup_reinsert hl k] at he
          exact ⟨e, he, hi⟩
        · intro k e he
          rw [lookup_reinsert hl k] at he
          exact hmt k e he
        · have h2 := length_eraseA hnm hl
          have hid : eraseA (eraseA m key) key = eraseA m key :=
            eraseA_eq_self (lookupA_eraseA_self m key)
          simp only [insertA, List.length_cons, hid]
          omega

theorem absorb_first_coherent {s s' : InnerStringStorage} {op : StringStorageOp}
    (hco : Coherent s) (hpre : PreOK op s) (h : s.absorb_first op = some s') :
    Coherent s' := by
  cases op with
  | Insert key string =>
    obtain ⟨htr, hmp⟩ := hpre
    cases h
    refine ⟨nodupKeys_insertA _ _ hco.nodup_trie, nodupKeys_insertA _ _ hco.nodup_map,
      ?_, ?_, ?_⟩
    · intro str2 k2 hk2
      by_cases hss : str2 = string
      · rw [hss] at hk2
        rw [lookupA_insertA_self] at hk2
        have hkk : k2 = key := (Option.some_inj.mp hk2).symm
        subst hkk
        refine ⟨StoredString.new string, lookupA_insertA_self _ _ _, ?_⟩
        rw [hss]
        rfl
      · rw [lookupA_insertA_ne _ _ hss] at hk2
        obtain ⟨e, he, hi⟩ := hco.trie_to_map str2 k2 hk2
        have hkk : k2 ≠ key := by
          intro hh
          subst hh
          rw [hmp] at he
          exact absurd he (by simp)
        rw [lookupA_insertA_ne _ _ hkk]
        exact ⟨e, he, hi⟩
    · intro k2 e2 he2
      by_cases hkk : k2 = key
      · subst hkk
        rw [lookupA_insertA_self] at he2
        have hse : e2 = StoredString.new string := (Option.some_inj.mp he2).symm
        subst hse
        exact lookupA_insertA_self _ _ _
      · rw [lookupA_insertA_ne _ _ hkk] at he2
        have hti := hco.map_to_trie k2 e2 he2
        have hss : e2.inner ≠ string := by
          intro hh
          rw [hh, htr] at hti
          exact absurd hti (by simp)
        rw [lookupA_insertA_ne _ _ hss]
        exact hti
    · rw [length_insertA_none _ htr, length_insertA_none _ hmp, hco.size_eq]
  | Retain key =>
    obtain ⟨e, hl, htrie, hpend, hmap⟩ := retain_inv h
    refine ⟨htrie ▸ hco.nodup_trie, hmap ▸ nodupKeys_insertA _ _ hco.nodup_map,
      ?_, ?_, ?_⟩
    · intro str2 k2 hk2
      rw [htrie] at hk2
      obtain ⟨e0, he0, hi0⟩ := hco.trie_to_map str2 k2 hk2
      rw [hmap]
      by_cases hkk : k2 = key
      · subst hkk
        rw [hl] at he0
        have hse : e0 = e := (Option.some_inj.mp he0).symm
        exact ⟨e.retain, lookupA_insertA_self _ _ _, hse ▸ hi0⟩
      · rw [lookupA_insertA_ne _ _ hkk]
        exact ⟨e0, he0, hi0⟩
    · intro k2 e2 he2
      rw [hmap] at he2
      rw [htrie]
      by_cases hkk : k2 = key
      · subst hkk
        rw [lookupA_insertA_self] at he2
        have hse : e2 = e.retain := (Option.some_inj.mp he2).symm
        subst hse
        exact hco.map_to_trie k2 e hl
      · rw [lookupA_insertA_ne _ _ hkk] at he2
        exact hco.map_to_trie k2 e2 he2
    · rw [htrie, hmap, length_insertA_some _ hco.nodup_map hl, hco.size_eq]
  | Release key =>
    obtain ⟨e, c, hl, hc, htrie, hmap⟩ := release_inv h
    refine ⟨htrie ▸ hco.nodup_trie, hmap ▸ nodupKeys_insertA _ _ hco.nodup_map,
      ?_, ?_, ?_⟩
    · intro str2 k2 hk2
      rw [htrie] at hk2
      obtain ⟨e0, he0, hi0⟩ := hco.trie_to_map str2 k2 hk2
      rw [hmap]
      by_cases hkk : k2 = key
      · subst hkk
        rw [hl] at he0
        have hse : e0 = e := (Option.some_inj.mp he0).symm
        exact ⟨{ e with strong_count := c }, lookupA_insertA_self _ _ _, hse ▸ hi0⟩
      · rw [lookupA_insertA_ne _ _ hkk]
        exact ⟨e0, he0, hi0⟩
    · intro k2 e2 he2
      rw [hmap] at he2
      rw [htrie]
      by_cases hkk : k2 = key
      · subst hkk
        rw [lookupA_insertA_self] at he2
        have hse : e2 = { e with strong_count := c } := (Option.some_inj.mp he2).symm
        subst hse
        exact hco.map_to_trie k2 e hl
      · rw [lookupA_insertA_ne _ _ hkk] at he2
        exact hco.map_to_trie k2 e2 he2
    · rw [htrie, hmap, length_insertA_some _ hco.nodup_map hl, hco.size_eq]
  | DropUnusedStrings =>
    unfold InnerStringStorage.absorb_first at h
    cases hp : processPendingFirst s.trie s.map s.strings_to_possibly_free with
    | none => rw [hp] at h; exact absurd h (by simp)
    | some q =>
      obtain ⟨t2, m2⟩ := q
      rw [hp] at h
      have hs2 : s' = { trie := t2, map := m2, strings_to_possibly_free := [] } :=
        (Option.some_inj.mp h).symm
      subst hs2
      obtain ⟨h1, h2, h3, h4, h5⟩ := processPendingFirst_coherent _ _ _ _ _ hp
        hco.nodup_trie hco.nodup_map hco.trie_to_map hco.map_to_trie hco.size_eq
      exact ⟨h1, h2, h3, h4, h5⟩

/-! Claim theorems. -/

theorem coherent_issEmpty : Coherent issEmpty := by
  refine ⟨?_, ?_, ?_, ?_, rfl⟩
  · simp [issEmpty, NodupKeys]
  · simp [issEmpty, NodupKeys]
  · intro str k h
    simp [issEmpty, lookupA] at h
  · intro k e h
    simp [issEmpty, lookupA] at h

theorem coherent_new : Coherent ConcurrentStringStorage.new.readable :=
  coherent_issEmpty

theorem coherent_cssW1 : Coherent cssW1.readable := by
  refine ⟨?_, ?_, ?_, ?_, rfl⟩
  · simp [cssW1, issW1, ConcurrentStringStorage.readable, NodupKeys]
  · simp [cssW1, issW1, ConcurrentStringStorage.readable, NodupKeys]
  · intro str k h
    simp only [cssW1, issW1, ConcurrentStringStorage.readable, lookupA] at h
    split at h
    · cases h
      exact ⟨{ inner := [7], strong_count := 1 }, by simp [lookupA], by simp_all⟩
    · exact absurd h (by simp)
  · intro k e h
    simp only [cssW1, issW1, ConcurrentStringStorage.readable, lookupA] at h
    split at h
    · cases h
      simp_all [lookupA]
    · exact absurd h (by simp)

/-- C1: two `intern` calls on byte-equal sequences return equal keys; the
second call finds the sequence in the readable trie and returns the existing
key. -/
theorem claim1_intern_deduplicates (css css1 css2 : ConcurrentStringStorage)
    (s1 s2 : BoxedStr) (k1 k2 : IStringKey)
    (hq : WriterQuiescent css) (hco : Coherent css.readable)
    (heq : s1 = s2)
    (h1 : css.insert_or_retain s1 = some (css1, k1))
    (h2 : css1.insert_or_retain s2 = some (css2, k2)) :
    k1 = k2 := by
  subst heq
  obtain ⟨htrie, _⟩ := insert_or_retain_post hq hco h1
  rw [insert_or_retain_hit_eq htrie] at h2
  exact ((Prod.ext_iff.mp (Option.some_inj.mp h2)).2)

theorem claim1_witness :
    WriterQuiescent ConcurrentStringStorage.new ∧
    Coherent ConcurrentStringStorage.new.readable ∧
    ([7] : BoxedStr) = [7] ∧
    ConcurrentStringStorage.new.insert_or_retain [7] = some (cssW1, 0) ∧
    cssW1.insert_or_retain [7] = some (cssW2, 0) ∧
    (0 : IStringKey) = 0 := by
  have hq : WriterQuiescent ConcurrentStringStorage.new := ⟨rfl, rfl⟩
  have h1 : ConcurrentStringStorage.new.insert_or_retain [7] = some (cssW1, 0) := by
    decide
  have h2 : cssW1.insert_or_retain [7] = some (cssW2, 0) := by decide
  exact ⟨hq, coherent_new, rfl, h1, h2,
    claim1_intern_deduplicates _ _ _ _ _ _ _ hq coherent_new rfl h1 h2⟩

/-- C2: after `intern` returns a handle, reading through the handle's key on
the readable replica returns the interned byte sequence unchanged. -/
theorem claim2_view_returns_interned_sequence
    (css css' : ConcurrentStringStorage) (str : BoxedStr) (k : IStringKey)
    (hq : WriterQuiescent css) (hco : Coherent css.readable)
    (h : css.insert_or_retain str = some (css', k)) :
    ThreadLocalReader.read css'.readable k = some str := by
  obtain ⟨_, e, he, hi⟩ := insert_or_retain_post hq hco h
  unfold ThreadLocalReader.read
  rw [he]
  simp [hi]

theorem claim2_witness :
    WriterQuiescent ConcurrentStringStorage.new ∧
    Coherent ConcurrentStringStorage.new.readable ∧
    ConcurrentStringStorage.new.insert_or_retain [7] = some (cssW1, 0) ∧
    ThreadLocalReader.read cssW1.readable 0 = some [7] := by
  have hq : WriterQuiescent ConcurrentStringStorage.new := ⟨rfl, rfl⟩
  have h1 : ConcurrentStringStorage.new.insert_or_retain [7] = some (cssW1, 0) := by
    decide
  exact ⟨hq, coherent_new, h1,
    claim2_view_returns_interned_sequence _ _ _ _ hq coherent_new h1⟩

/-- C3: trie/map agreement (with equal sizes) is preserved by absorbing each
operation, through `absorb_first` as well as `absorb_second`, under the
`Insert` freshness and `Retain`/`Release` key-present preconditions. -/
theorem claim3_trie_map_agreement_invariant (s s1 s2 : InnerStringStorage)
    (op : StringStorageOp) (hco : Coherent s) (hpre : PreOK op s)
    (h1 : s.absorb_first op = some s1) (h2 : s.absorb_second op = some s2) :
    Coherent s1 ∧ Coherent s2 := by
  refine ⟨absorb_first_coherent hco hpre h1, ?_⟩
  rw [← absorb_first_eq_second] at h2
  exact absorb_first_coherent hco hpre h2

theorem claim3_witness :
    Coherent issEmpty ∧
    PreOK (StringStorageOp.Insert 0 [7]) issEmpty ∧
    issEmpty.absorb_first (StringStorageOp.Insert 0 [7]) = some issW1 ∧
    issEmpty.absorb_second (StringStorageOp.Insert 0 [7]) = some issW1 ∧
    (Coherent issW1 ∧ Coherent issW1) := by
  have hpre : PreOK (StringStorageOp.Insert 0 [7]) issEmpty := by
    constructor <;> decide
  have h1 : issEmpty.absorb_first (StringStorageOp.Insert 0 [7]) = some issW1 := by
    decide
  have h2 : issEmpty.absorb_second (StringStorageOp.Insert 0 [7]) = some issW1 := by
    decide
  exact ⟨coherent_issEmpty, hpre, h1, h2,
    claim3_trie_map_agreement_invariant _ _ _ _ coherent_issEmpty hpre h1 h2⟩

/-- C4: absorbing `DropUnusedStrings` drains `strings_to_possibly_free`
completely; a drained key whose strong count is `0` loses its map entry and
its trie entry, a drained key with nonzero count keeps its entry unchanged,
and keys not pending and sequences not dropped are untouched. -/
theorem claim4_drop_unused_characterization (s s' : InnerStringStorage)
    (k j : IStringKey) (e : StoredString) (sq : BoxedStr)
    (hnodup : s.strings_to_possibly_free.Nodup)
    (habs : s.absorb_first StringStorageOp.DropUnusedStrings = some s')
    (hk : k ∈ s.strings_to_possibly_free)
    (he : lookupA s.map k = some e)
    (hj : j ∉ s.strings_to_possibly_free)
    (hsq : sq ∉ droppedSeqs s.map s.strings_to_possibly_free) :
    s'.strings_to_possibly_free = [] ∧
    (e.strong_count = 0 → lookupA s'.map k = none ∧ lookupA s'.trie e.inner = none) ∧
    (e.strong_count ≠ 0 → lookupA s'.map k = some e) ∧
    lookupA s'.map j = lookupA s.map j ∧
    lookupA s'.trie sq = lookupA s.trie sq := by
  unfold InnerStringStorage.absorb_first at habs
  cases hp : processPendingFirst s.trie s.map s.strings_to_possibly_free with
  | none => rw [hp] at habs; exact absurd habs (by simp)
  | some q =>
    obtain ⟨t2, m2⟩ := q
    rw [hp] at habs
    have hs2 : s' = { trie := t2, map := m2, strings_to_possibly_free := [] } :=
      (Option.some_inj.mp habs).symm
    subst hs2
    refine ⟨rfl, ?_, ?_, ?_, ?_⟩
    · intro hz
      exact processPendingFirst_dropped _ _ _ _ _ hp hnodup k e hk he hz
    · intro hz
      exact processPendingFirst_kept _ _ _ _ _ hp hnodup k e hk he hz
    · exact processPendingFirst_map_frame _ _ _ _ _ hp j hj
    · exact processPendingFirst_trie_frame _ _ _ _ _ hp hnodup sq hsq

theorem claim4_witness :
    ([0, 1] : List IStringKey).Nodup ∧
    issW4.absorb_first StringStorageOp.DropUnusedStrings =
      some { trie := [([2], 1)],
             map := [(1, { inner := [2], strong_count := 3 })],
             strings_to_possibly_free := [] } ∧
    (0 : IStringKey) ∈ issW4.strings_to_possibly_free ∧
    lookupA issW4.map 0 = some { inner := [1], strong_count := 0 } ∧
    (5 : IStringKey) ∉ issW4.strings_to_possibly_free ∧
    ([2] : BoxedStr) ∉ droppedSeqs issW4.map issW4.strings_to_possibly_free ∧
    (({ trie := [([2], 1)],
        map := [(1, { inner := [2], strong_count := 3 })],
        strings_to_possibly_free := [] } : InnerStringStorage).strings_to_possibly_free
        = [] ∧
      ((0 : Int) = 0 →
        lookupA [(1, ({ inner := [2], strong_count := 3 } : StoredString))] 0 = none ∧
        lookupA [(([2] : BoxedStr), (1 : IStringKey))] [1] = none) ∧
      ((0 : Int) ≠ 0 →
        lookupA [(1, ({ inner := [2], strong_count := 3 } : StoredString))] 0 =
          some { inner := [1], strong_count := 0 }) ∧
      lookupA [(1, ({ inner := [2], strong_count := 3 } : StoredString))] 5 =
        lookupA issW4.map 5 ∧
      lookupA [(([2] : BoxedStr), (1 : IStringKey))] [2] = lookupA issW4.trie [2]) := by
  refine ⟨by decide, by decide, by decide, by decide, by decide, by decide, ?_⟩
  exact claim4_drop_unused_characterization issW4 _ 0 5
    { inner := [1], strong_count := 0 } [2]
    (by decide) (by decide) (by decide) (by decide) (by decide) (by decide)

/-- C5: absorbing `Release` on a present key decrements the entry's strong
count by one, appends the key to `strings_to_possibly_free` exactly when the
decremented count is `0`, and completes without failing (and without any
append) when the count goes negative. -/
theorem claim5_release_characterization (s : InnerStringStorage)
    (k : IStringKey) (e : StoredString)
    (he : lookupA s.map k = some e) (hmin : isizeMin < e.strong_count) :
    s.release k = some { s with
      map := insertA s.map k { e with strong_count := e.strong_count - 1 },
      strings_to_possibly_free :=
        if e.strong_count - 1 = 0 then s.strings_to_possibly_free ++ [k]
        else s.strings_to_possibly_free } ∧
    lookupA (insertA s.map k { e with strong_count := e.strong_count - 1 }) k =
      some { e with strong_count := e.strong_count - 1 } ∧
    (e.strong_count - 1 < 0 →
      (if e.strong_count - 1 = 0 then s.strings_to_possibly_free ++ [k]
       else s.strings_to_possibly_free) = s.strings_to_possibly_free) :=
  ⟨release_eq he hmin, lookupA_insertA_self _ _ _,
    fun hneg => if_neg (by omega)⟩

theorem claim5_witness :
    lookupA issW5.map 3 = some { inner := [9], strong_count := 0 } ∧
    isizeMin < (0 : Int) ∧
    (issW5.release 3 = some { issW5 with
        map := insertA issW5.map 3 { inner := [9], strong_count := -1 },
        strings_to_possibly_free := issW5.strings_to_possibly_free } ∧
      lookupA (insertA issW5.map 3 { inner := [9], strong_count := -1 }) 3 =
        some { inner := [9], strong_count := -1 } ∧
      ((-1 : Int) < 0 → issW5.strings_to_possibly_free =
        issW5.strings_to_possibly_free)) := by
  have he : lookupA issW5.map 3 = some { inner := [9], strong_count := 0 } := by
    decide
  have hmin : isizeMin < (0 : Int) := by decide
  have hmain := claim5_release_characterization issW5 3
    { inner := [9], strong_count := 0 } he hmin
  refine ⟨he, hmin, ?_, hmain.2.1, fun _ => rfl⟩
  have hz : ¬ ((0 : Int) - 1 = 0) := by decide
  have h1 := hmain.1
  rw [if_neg hz] at h1
  exact h1

/-- C6: on a lookup miss the writer drains the op-channel (translating channel
`Retain`/`Release` into storage `Retain`/`Release`), allocates the current
`next_key` and increments it, appends `Insert` with the new key and then
`DropUnusedStrings`, and publishes exactly that batch, in that order, to both
replicas. -/
theorem claim6_miss_path_batch_structure (w w2 : UniqueWriter) (str : BoxedStr)
    (key : IStringKey) (hlog : w.write_handle.oplog = [])
    (h : w.do_pending_ops_and_insert str = some (w2, key)) :
    key = w.next_key ∧
    w2.next_key = w.next_key + 1 ∧
    w2.ops_channel_receiver = [] ∧
    w2.write_handle.oplog = [] ∧
    absorbAllFirst w.write_handle.w_replica
      (List.map channelToStorageOp w.ops_channel_receiver ++
        [StringStorageOp.Insert w.next_key str, StringStorageOp.DropUnusedStrings])
      = some w2.write_handle.r_replica ∧
    absorbAllSecond w.write_handle.r_replica
      (List.map channelToStorageOp w.ops_channel_receiver ++
        [StringStorageOp.Insert w.next_key str, StringStorageOp.DropUnusedStrings])
      = some w2.write_handle.w_replica := by
  obtain ⟨hk, hble, hnk, hch, hlog2, hf, hs⟩ := dp_inv h
  rw [hlog, List.nil_append] at hf hs
  exact ⟨hk, hnk, hch, hlog2, hf, hs⟩

theorem claim6_witness :
    ConcurrentStringStorage.new.writer.write_handle.oplog = [] ∧
    ConcurrentStringStorage.new.writer.do_pending_ops_and_insert [7] =
      some (cssW1.writer, 0) ∧
    ((0 : IStringKey) = ConcurrentStringStorage.new.writer.next_key ∧
      cssW1.writer.next_key = ConcurrentStringStorage.new.writer.next_key + 1 ∧
      cssW1.writer.ops_channel_receiver = [] ∧
      cssW1.writer.write_handle.oplog = [] ∧
      absorbAllFirst ConcurrentStringStorage.new.writer.write_handle.w_replica
        (List.map channelToStorageOp
            ConcurrentStringStorage.new.writer.ops_channel_receiver ++
          [StringStorageOp.Insert ConcurrentStringStorage.new.writer.next_key [7],
            StringStorageOp.DropUnusedStrings])
        = some cssW1.writer.write_handle.r_replica ∧
      absorbAllSecond ConcurrentStringStorage.new.writer.write_handle.r_replica
        (List.map channelToStorageOp
            ConcurrentStringStorage.new.writer.ops_channel_receiver ++
          [StringStorageOp.Insert ConcurrentStringStorage.new.writer.next_key [7],
            StringStorageOp.DropUnusedStrings])
        = some cssW1.writer.write_handle.w_replica) := by
  have h : ConcurrentStringStorage.new.writer.do_pending_ops_and_insert [7] =
      some (cssW1.writer, 0) := by decide
  exact ⟨rfl, h, claim6_miss_path_batch_structure _ _ _ _ rfl h⟩

theorem insertKeysOf_channel :
    ∀ (c : List ChannelOp), insertKeysOf (List.map channelToStorageOp c) = [] := by
  intro c
  induction c with
  | nil => rfl
  | cons op rest ih =>
    cases op with
    | Retain k =>
      simp only [List.map_cons, insertKeysOf, List.filterMap_cons, channelToStorageOp]
      exact ih
    | Release k =>
      simp only [List.map_cons, insertKeysOf, List.filterMap_cons, channelToStorageOp]
      exact ih

theorem insertKeysOf_append (l1 l2 : List StringStorageOp) :
    insertKeysOf (l1 ++ l2) = insertKeysOf l1 ++ insertKeysOf l2 := by
  simp [insertKeysOf]

theorem insertKeysOf_insert_drop (k : IStringKey) (str : BoxedStr) :
    insertKeysOf
      [StringStorageOp.Insert k str, StringStorageOp.DropUnusedStrings] = [k] := rfl

/-- C7: a successful miss-path intern returns the current `next_key`, which is
distinct from every previously returned key (all of which are below
`next_key`), increments `next_key`, and keeps every stored key below the new
`next_key` (so keys are never reused); when `next_key` reaches the largest
`u32` and can no longer be incremented, intern of a new sequence fails. -/
theorem claim7_key_uniqueness_and_exhaustion
    (css css' : ConcurrentStringStorage) (str : BoxedStr)
    (k kprev jpost : IStringKey)
    (hmiss : lookupA css.readable.trie str = none)
    (hkeys : ∀ j, (lookupA css.readable.map j).isSome = true →
      j < css.writer.next_key)
    (hq : WriterQuiescent css)
    (hprev : kprev < css.writer.next_key) :
    (css.insert_or_retain str = some (css', k) →
      k = css.writer.next_key ∧ kprev ≠ k ∧
      css'.writer.next_key = css.writer.next_key + 1 ∧
      kprev < css'.writer.next_key ∧
      ((lookupA css'.readable.map jpost).isSome = true →
        jpost < css'.writer.next_key)) ∧
    (css.writer.next_key = u32Max → css.insert_or_retain str = none) := by
  obtain ⟨hlog, hrepl⟩ := hq
  constructor
  · intro h
    have hdp := insert_or_retain_miss_inv hmiss h
    obtain ⟨hk, hble, hnk, hch, hlog2, hf, hs⟩ := dp_inv hdp
    refine ⟨hk, ?_, hnk, ?_, ?_⟩
    · intro hh
      rw [hk] at hh
      exact Nat.ne_of_lt hprev hh
    · rw [hnk]
      exact Nat.lt_succ_of_lt hprev
    · intro hj
      rw [hlog, List.nil_append, hrepl] at hf
      cases absorbAllFirst_keys _ _ _ hf jpost hj with
      | inl hin =>
        rw [hnk]
        exact Nat.lt_succ_of_lt (hkeys jpost hin)
      | inr hmem =>
        rw [insertKeysOf_append, insertKeysOf_channel, insertKeysOf_insert_drop,
          List.nil_append] at hmem
        rw [hnk, List.mem_singleton.mp hmem]
        exact Nat.lt_succ_self _
  · intro hexh
    unfold ConcurrentStringStorage.insert_or_retain
    rw [hmiss]
    have hnone : checkedAddU32 css.writer.next_key 1 = none := by
      rw [hexh]
      decide
    simp only [UniqueWriter.do_pending_ops_and_insert, UniqueWriter.drain_channel_ops,
      hnone]

theorem claim7_witness :
    lookupA cssW1.readable.trie [9] = none ∧
    (∀ j, (lookupA cssW1.readable.map j).isSome = true →
      j < cssW1.writer.next_key) ∧
    WriterQuiescent cssW1 ∧
    (0 : IStringKey) < cssW1.writer.next_key ∧
    ((cssW1.insert_or_retain [9] = some (cssW7, 1) →
      (1 : IStringKey) = cssW1.writer.next_key ∧ (0 : IStringKey) ≠ 1 ∧
      cssW7.writer.next_key = cssW1.writer.next_key + 1 ∧
      (0 : IStringKey) < cssW7.writer.next_key ∧
      ((lookupA cssW7.readable.map 1).isSome = true →
        (1 : IStringKey) < cssW7.writer.next_key)) ∧
     (cssW1.writer.next_key = u32Max → cssW1.insert_or_retain [9] = none)) := by
  have hmiss : lookupA cssW1.readable.trie [9] = none := by decide
  have hkeys : ∀ j, (lookupA cssW1.readable.map j).isSome = true →
      j < cssW1.writer.next_key := by
    intro j hj
    by_cases h0 : (0 : IStringKey) = j
    · rw [← h0]
      decide
    · simp [cssW1, issW1, ConcurrentStringStorage.readable, lookupA, h0] at hj
  have hq : WriterQuiescent cssW1 := ⟨rfl, rfl⟩
  have hprev : (0 : IStringKey) < cssW1.writer.next_key := by decide
  exact ⟨hmiss, hkeys, hq, hprev,
    claim7_key_uniqueness_and_exhaustion cssW1 cssW7 [9] 1 0 1
      hmiss hkeys hq hprev⟩

/-- C8: when the sequence is found in the thread-local reader's trie, intern
returns the found key after sending exactly one `Retain` for it on the
op-channel, leaving the write handle (no append, no publish) and the next-key
counter untouched. -/
theorem claim8_hit_path_frame (css : ConcurrentStringStorage) (str : BoxedStr)
    (k : IStringKey) (hfound : lookupA css.readable.trie str = some k) :
    css.insert_or_retain str = some (ThreadLocalReader.retain css k, k) ∧
    (ThreadLocalReader.retain css k).writer.write_handle =
      css.writer.write_handle ∧
    (ThreadLocalReader.retain css k).writer.next_key = css.writer.next_key ∧
    (ThreadLocalReader.retain css k).writer.ops_channel_receiver =
      css.writer.ops_channel_receiver ++ [ChannelOp.Retain k] :=
  ⟨insert_or_retain_hit_eq hfound, rfl, rfl, rfl⟩

theorem claim8_witness :
    lookupA cssW1.readable.trie [7] = some 0 ∧
    (cssW1.insert_or_retain [7] = some (ThreadLocalReader.retain cssW1 0, 0) ∧
      (ThreadLocalReader.retain cssW1 0).writer.write_handle =
        cssW1.writer.write_handle ∧
      (ThreadLocalReader.retain cssW1 0).writer.next_key = cssW1.writer.next_key ∧
      (ThreadLocalReader.retain cssW1 0).writer.ops_channel_receiver =
        cssW1.writer.ops_channel_receiver ++ [ChannelOp.Retain 0]) := by
  have hfound : lookupA cssW1.readable.trie [7] = some 0 := by decide
  exact ⟨hfound, claim8_hit_path_frame cssW1 [7] 0 hfound⟩

/-- C9: `absorb_first` and `absorb_second` are observationally equivalent:
absorbing any op sequence from any replica state yields the same result
(including failure) on both sides, so after `publish` the two replicas are
identical. -/
theorem claim9_absorb_first_second_equivalent (s : InnerStringStorage)
    (ops : List StringStorageOp) :
    absorbAllFirst s ops = absorbAllSecond s ops :=
  absorbAll_first_eq_second ops s

/-- C10: absorbing `Retain` or `Release` on a present key leaves the trie and
all other map entries unchanged, only updates the entry's strong count (plus,
for a `Release` that reaches `0`, an append to `strings_to_possibly_free`),
and the entry stays in the map and the trie. The strong count is an `isize`,
so the increment by one is stated below `isizeMax`, matching the decrement's
`isizeMin` bound. -/
theorem claim10_retain_release_frame (s sR sL : InnerStringStorage)
    (k j : IStringKey) (e : StoredString)
    (he : lookupA s.map k = some e) (hmin : isizeMin < e.strong_count)
    (hmax : e.strong_count < isizeMax) (hj : j ≠ k)
    (hret : s.retain k = some sR) (hrel : s.release k = some sL) :
    sR.trie = s.trie ∧
    sR.strings_to_possibly_free = s.strings_to_possibly_free ∧
    lookupA sR.map k = some { e with strong_count := e.strong_count + 1 } ∧
    lookupA sR.map j = lookupA s.map j ∧
    sL.trie = s.trie ∧
    lookupA sL.map k = some { e with strong_count := e.strong_count - 1 } ∧
    lookupA sL.map j = lookupA s.map j ∧
    (e.strong_count - 1 = 0 →
      sL.strings_to_possibly_free = s.strings_to_possibly_free ++ [k]) ∧
    (e.strong_count - 1 ≠ 0 →
      sL.strings_to_possibly_free = s.strings_to_possibly_free) := by
  rw [retain_eq he] at hret
  have hRR : sR = { s with map := insertA s.map k e.retain } :=
    (Option.some_inj.mp hret).symm
  subst hRR
  rw [release_eq he hmin] at hrel
  have hLL : sL = { s with
      map := insertA s.map k { e with strong_count := e.strong_count - 1 },
      strings_to_possibly_free :=
        if e.strong_count - 1 = 0 then s.strings_to_possibly_free ++ [k]
        else s.strings_to_possibly_free } :=
    (Option.some_inj.mp hrel).symm
  subst hLL
  refine ⟨rfl, rfl, ?_, lookupA_insertA_ne _ _ hj, rfl,
    lookupA_insertA_self _ _ _, lookupA_insertA_ne _ _ hj, ?_, ?_⟩
  · rw [lookupA_insertA_self, retain_bounded hmin hmax]
  · intro hz
    show (if e.strong_count - 1 = 0 then s.strings_to_possibly_free ++ [k]
      else s.strings_to_possibly_free) = s.strings_to_possibly_free ++ [k]
    exact if_pos hz
  · intro hz
    show (if e.strong_count - 1 = 0 then s.strings_to_possibly_free ++ [k]
      else s.strings_to_possibly_free) = s.strings_to_possibly_free
    exact if_neg hz

theorem claim10_witness :
    lookupA issW10.map 2 = some { inner := [4], strong_count := 1 } ∧
    isizeMin < (1 : Int) ∧
    (1 : Int) < isizeMax ∧
    (5 : IStringKey) ≠ 2 ∧
    issW10.retain 2 = some { issW10 with
      map := insertA issW10.map 2 { inner := [4], strong_count := 2 } } ∧
    issW10.release 2 = some { issW10 with
      map := insertA issW10.map 2 { inner := [4], strong_count := 0 },
      strings_to_possibly_free := [2] } ∧
    lookupA (insertA issW10.map 2 { inner := [4], strong_count := 0 }) 2 =
      some { inner := [4], strong_count := 0 } := by
  have he : lookupA issW10.map 2 = some { inner := [4], strong_count := 1 } := by
    decide
  have hmin : isizeMin < (1 : Int) := by decide
  have hmax : (1 : Int) < isizeMax := by decide
  have hj : (5 : IStringKey) ≠ 2 := by decide
  have hret : issW10.retain 2 = some { issW10 with
      map := insertA issW10.map 2 { inner := [4], strong_count := 2 } } := by decide
  have hrel : issW10.release 2 = some { issW10 with
      map := insertA issW10.map 2 { inner := [4], strong_count := 0 },
      strings_to_possibly_free := [2] } := by decide
  have hmain := claim10_retain_release_frame issW10 _ _ 2 5
    { inner := [4], strong_count := 1 } he hmin hmax hj hret hrel
  exact ⟨he, hmin, hmax, hj, hret, hrel, hmain.2.2.2.2.2.1⟩

end InternedString
